import Mathlib

/-!
Verification of the declarative route-registration core of
`synapse/util/__init__.py` (decorator-based handler registration) via a
shallow embedding in Lean.

The embedding models:
* Python dicts of keyword options as association lists (`Options`), with
  Python's lookup, `{**a, **b}` merge and `dict.setdefault` semantics
  (`alookup`, `mergeOpts`, `setdefault`);
* the path-template compiler `transform_path` (regex sugar substitution
  `RE_SUGAR.sub`), as a character-level scanner;
* the registration machinery `servelet` / `register_proxy` / `do_register`
  as explicit state passing over a store of per-method annotations, with
  the calls issued to the external HTTP server collected in a trace of
  `RegEvent`s;
* `glob_to_regex` together with a semantics for the fragment of regular
  expressions it emits.
-/

/-- A Python value stored in an options mapping (only booleans and integers
are needed by the registration machinery and the examples). -/
inductive PyVal where
  | vbool (b : Bool)
  | vint (n : Int)
deriving DecidableEq

/-- Options mappings (Python `dict`s of keyword arguments), modelled as
association lists in insertion order; lookup returns the first matching
entry. -/
abbrev Options := List (String × PyVal)

/-- Lookup in an association list keyed by strings: first match wins.
This is the Python `d[k]` / `k in d` semantics for our dict model. -/
def alookup {β : Type} : List (String × β) → String → Option β
  | [], _ => none
  | kv :: rest, q => if kv.1 = q then some kv.2 else alookup rest q

/-- Python `d.setdefault(k, v)`: if `k` is absent, append `(k, v)` at the
end (dicts preserve insertion order); otherwise leave `d` unchanged. -/
def setdefault (d : Options) (k : String) (v : PyVal) : Options :=
  match alookup d k with
  | some _ => d
  | none => d ++ [(k, v)]

/-- Python `{**b, **o}`: keys of `b` in order with values overridden by `o`
where present, followed by the keys of `o` not already in `b`, in `o`'s
order. -/
def mergeOpts (b o : Options) : Options :=
  b.map (fun kv =>
    match alookup o kv.1 with
    | some w => (kv.1, w)
    | none => kv) ++
  o.filter (fun kv => (alookup b kv.1).isNone)

theorem alookup_append {β : Type} (xs ys : List (String × β)) (k : String) :
    alookup (xs ++ ys) k =
      match alookup xs k with
      | some v => some v
      | none => alookup ys k := by
  induction xs with
  | nil => simp [alookup]
  | cons kv rest ih =>
    by_cases h : kv.1 = k <;> simp [alookup, h, ih]

theorem alookup_merge_mapped (b o : Options) (k : String) :
    alookup (b.map (fun kv =>
      match alookup o kv.1 with
      | some w => (kv.1, w)
      | none => kv)) k =
      match alookup b k with
      | none => none
      | some v =>
        match alookup o k with
        | some w => some w
        | none => some v := by
  induction b with
  | nil => simp [alookup]
  | cons kv rest ih =>
    by_cases hk : kv.1 = k
    · subst hk
      cases ho : alookup o kv.1 <;> simp [alookup, ho]
    · cases ho : alookup o kv.1 <;> simp [alookup, ho, hk, ih]

theorem alookup_merge_filtered (b o : Options) (k : String) :
    alookup (o.filter (fun kv => (alookup b kv.1).isNone)) k =
      match alookup b k with
      | some _ => none
      | none => alookup o k := by
  induction o with
  | nil => cases alookup b k <;> simp [alookup]
  | cons kv rest ih =>
    by_cases hk : kv.1 = k
    · subst hk
      cases hb : alookup b kv.1 <;> simp [alookup, List.filter, hb, ih]
    · cases hbkv : alookup b kv.1 <;>
        cases hb : alookup b k <;>
        simp_all [alookup, List.filter, hk]

/-- Lookup in a Python merge `{**b, **o}`: the override wins on collision,
and keys only in the base keep their base value. -/
theorem alookup_mergeOpts (b o : Options) (k : String) :
    alookup (mergeOpts b o) k =
      match alookup o k with
      | some w => some w
      | none => alookup b k := by
  unfold mergeOpts
  rw [alookup_append, alookup_merge_mapped, alookup_merge_filtered]
  cases hb : alookup b k <;> cases ho : alookup o k <;> simp

/-! ### Path template compiler (`transform_path`)

The source compiles `RE_SUGAR = re.compile(r"{(\w+)}")` and defines
`transform_path(orig_path)` as `RE_SUGAR.sub(r"(?P<\1>[^/]*)", orig_path)`:
every `{name}` placeholder (one or more word characters between braces) is
replaced by a named capture group matching `[^/]*`; all other characters
are copied verbatim (no escaping).  We implement `re.sub`'s left-to-right,
non-overlapping scan as a character-level state machine: outside a
candidate placeholder, or inside one having read `{` and a (reversed)
run of word characters. -/

/-- Opening brace character of a placeholder. -/
def lbrace : Char := '\x7b'

/-- Closing brace character of a placeholder. -/
def rbrace : Char := '\x7d'

/-- Python regex `\w` (ASCII fragment): letters, digits, underscore. -/
def wordChar (c : Char) : Bool := c.isAlphanum || c = '_'

/-- The replacement text `(?P<name>[^/]*)` for a placeholder `{name}`. -/
def groupPat (nm : List Char) : List Char :=
  ['(', '?', 'P', '<'] ++ nm ++ ['>', '[', '^', '/', ']', '*', ')']

/-- Scanner for `RE_SUGAR.sub`: the first argument is `none` outside a
candidate placeholder and `some nmRev` after reading `{` followed by the
reversed word-character run `nmRev`. -/
def tpGo : Option (List Char) → List Char → List Char
  | none, [] => []
  | none, c :: rest =>
    if c = lbrace then tpGo (some []) rest else c :: tpGo none rest
  | some nmRev, [] => lbrace :: nmRev.reverse
  | some nmRev, c :: rest =>
    if wordChar c then tpGo (some (c :: nmRev)) rest
    else if c = rbrace ∧ nmRev ≠ [] then
      groupPat nmRev.reverse ++ tpGo none rest
    else
      (lbrace :: nmRev.reverse) ++
        (if c = lbrace then tpGo (some []) rest else c :: tpGo none rest)

/-- `transform_path` from the source: substitute every `{name}` placeholder
by the named capture group `(?P<name>[^/]*)`, leaving everything else
verbatim. -/
def transform_path (orig_path : List Char) : List Char :=
  tpGo none orig_path

/-- Atom of a compiled template pattern: a verbatim character or a named
capture group `(?P<nm>[^/]*)`. -/
inductive TAtom where
  | lit (c : Char)
  | group (nm : List Char)
deriving DecidableEq

/-- Structured version of the `transform_path` scan, emitting atoms instead
of raw pattern text (same state machine as `tpGo`). -/
def taGo : Option (List Char) → List Char → List TAtom
  | none, [] => []
  | none, c :: rest =>
    if c = lbrace then taGo (some []) rest else TAtom.lit c :: taGo none rest
  | some nmRev, [] => (lbrace :: nmRev.reverse).map TAtom.lit
  | some nmRev, c :: rest =>
    if wordChar c then taGo (some (c :: nmRev)) rest
    else if c = rbrace ∧ nmRev ≠ [] then
      TAtom.group nmRev.reverse :: taGo none rest
    else
      (lbrace :: nmRev.reverse).map TAtom.lit ++
        (if c = lbrace then taGo (some []) rest else TAtom.lit c :: taGo none rest)

/-- The atoms of a compiled template. -/
def templateAtoms (t : List Char) : List TAtom :=
  taGo none t

/-- Pattern text denoted by one template atom. -/
def renderAtom : TAtom → List Char
  | TAtom.lit c => [c]
  | TAtom.group nm => groupPat nm

theorem flatMap_renderAtom_lits (xs : List Char) (ts : List TAtom) :
    ((xs.map TAtom.lit ++ ts).flatMap renderAtom)
      = xs ++ ts.flatMap renderAtom := by
  induction xs with
  | nil => simp
  | cons c rest ih => simp_all [renderAtom]

theorem flatMap_renderAtom_map_lit (xs : List Char) :
    ((xs.map TAtom.lit).flatMap renderAtom) = xs := by
  simpa using flatMap_renderAtom_lits xs []

theorem tpGo_eq_taGo (t : List Char) :
    ∀ st, tpGo st t = (taGo st t).flatMap renderAtom := by
  induction t with
  | nil =>
    intro st
    cases st with
    | none => simp [tpGo, taGo]
    | some nmRev =>
      simpa [tpGo, taGo] using (flatMap_renderAtom_lits (lbrace :: nmRev.reverse) []).symm
  | cons c rest ih =>
    intro st
    cases st with
    | none =>
      by_cases h : c = lbrace <;> simp [tpGo, taGo, h, ih, renderAtom]
    | some nmRev =>
      by_cases hw : wordChar c
      · simp [tpGo, taGo, hw, ih]
      · by_cases hr : c = rbrace ∧ nmRev ≠ []
        · obtain ⟨hc, hne⟩ := hr
          subst hc
          simp [tpGo, taGo, hw, hne, ih, renderAtom, groupPat]
        · by_cases hl : c = lbrace
          · subst hl
            simp [tpGo, taGo, hw, hr, ih, renderAtom,
              flatMap_renderAtom_lits, flatMap_renderAtom_map_lit]
            rw [← List.map_reverse, flatMap_renderAtom_map_lit]
          · simp [tpGo, taGo, hw, hr, hl, ih, renderAtom,
              flatMap_renderAtom_lits, flatMap_renderAtom_map_lit]
            rw [← List.map_reverse, flatMap_renderAtom_map_lit]

/-- The compiled pattern text is the concatenation of the rendered atoms:
`transform_path` replaces exactly the placeholders by capture groups and
keeps every other character verbatim. -/
theorem transform_path_atoms (t : List Char) :
    transform_path t = (templateAtoms t).flatMap renderAtom :=
  tpGo_eq_taGo t none

/-- Placeholder-free templates pass through `transform_path` unchanged
(in particular, no regex metacharacter in them is escaped). -/
theorem transform_path_no_brace (t : List Char) (h : lbrace ∉ t) :
    transform_path t = t := by
  unfold transform_path
  induction t with
  | nil => simp [tpGo]
  | cons c rest ih =>
    simp only [List.mem_cons, not_or] at h
    have hc : ¬c = lbrace := fun hc => h.1 hc.symm
    simp [tpGo, hc, ih h.2]

/-! ### Registration machinery (`servelet`, `register_proxy`, `do_register`)

A handler method carries a `PendingAnnotation` `_on = (verb, path_arg,
kwargs)` set by the `on` decorators.  `servelet` scans the class dict for
annotated methods, and if any exist installs a synthesized `register`
routine built by `register_proxy` from the method set and any directly
defined `register` attribute.  Invoking the routine issues
`http_server.register_paths(...)` calls via `do_register`, which also
performs `client_pattern_kwargs.setdefault("add_stopper", True)` — a
mutation of whichever dict object was passed (the annotation's own dict
for plain-string path entries).

The mutable world is a `Store` mapping method names (standing for the
function objects) to the current state of their `_on` annotation; calls to
the external server are collected as `RegEvent`s in a trace. -/

/-- One element of an iterable `PATH_ARG`: a path template string, a
`(template, per-path options)` tuple, or something else (`bad`), which the
registration loop matches with no branch. -/
inductive PathElem where
  | str (p : List Char)
  | pair (p : List Char) (o : Options)
  | bad
deriving DecidableEq

/-- The `PATH_ARG` of an annotation: a single template string, an iterable
of elements, or a value that is neither (matched by no `isinstance`
branch). -/
inductive PathArg where
  | single (p : List Char)
  | multi (es : List PathElem)
  | bad
deriving DecidableEq

/-- The `PendingAnnotation` stored as `method._on = (verb, path, kwargs)`
by the `on` decorators. -/
structure Annotation where
  verb : String
  path : PathArg
  opts : Options
deriving DecidableEq

/-- The decorator `on.get(path_arg, **kwargs)` applied to a handler:
records the pending annotation. -/
def on_get (p : PathArg) (kw : Options) : Annotation := ⟨"GET", p, kw⟩

/-- The decorator `on.post(path_arg, **kwargs)` applied to a handler. -/
def on_post (p : PathArg) (kw : Options) : Annotation := ⟨"POST", p, kw⟩

/-- The decorator `on.put(path_arg, **kwargs)` applied to a handler. -/
def on_put (p : PathArg) (kw : Options) : Annotation := ⟨"PUT", p, kw⟩

/-- The decorator `on.options(path_arg, **kwargs)` applied to a handler. -/
def on_options (p : PathArg) (kw : Options) : Annotation := ⟨"OPTIONS", p, kw⟩

/-- The decorator `on.delete(path_arg, **kwargs)` applied to a handler. -/
def on_delete (p : PathArg) (kw : Options) : Annotation := ⟨"DELETE", p, kw⟩

/-- One call to the external server's
`register_paths(http_method, client_patterns(transform_path(p), **kwargs),
method, cls.__name__)` entry point.  `pattern` records the compiled
template handed to the (external) `client_patterns`; `opts` the keyword
options after `do_register`'s `setdefault`. -/
structure RegEvent where
  verb : String
  pattern : List Char
  opts : Options
  handler : String
  clsName : String
deriving DecidableEq

/-- The mutable annotation state of the handler function objects, keyed by
method name (standing for object identity). -/
abbrev Store := List (String × Annotation)

/-- Replace the (first) entry of `n` in the store; identity if absent. -/
def storeSet : Store → String → Annotation → Store
  | [], _, _ => []
  | kv :: rest, n, a =>
    if kv.1 = n then (n, a) :: rest else kv :: storeSet rest n a

/-- `do_register` from the source: performs
`client_pattern_kwargs.setdefault("add_stopper", True)` — returning the
(possibly extended) dict that the caller's object now holds — and issues
the registration call with the compiled pattern.  The external
`client_patterns` wrapper is outside the core; the event records its
arguments. -/
def do_register (clsName http_method : String) (client_pattern : List Char)
    (client_pattern_kwargs : Options) (method : String) :
    Options × RegEvent :=
  let kw := setdefault client_pattern_kwargs "add_stopper" (PyVal.vbool true)
  (kw, ⟨http_method, transform_path client_pattern, kw, method, clsName⟩)

/-- The body of the `for path_aggregate in on[1]` loop of `register`:
a string element passes the annotation's own kwargs dict (aliased, so its
`setdefault` mutation sticks); a tuple element passes the fresh merge
`{**on[2], **path_aggregate[1]}` (mutation discarded); anything else
matches no branch. -/
def procElem (cN v h : String) (acc : Options × List RegEvent) :
    PathElem → Options × List RegEvent
  | PathElem.str p =>
    let r := do_register cN v p acc.1 h
    (r.1, acc.2 ++ [r.2])
  | PathElem.pair p o =>
    let r := do_register cN v p (mergeOpts acc.1 o) h
    (acc.1, acc.2 ++ [r.2])
  | PathElem.bad => acc

/-- Processing of one annotated method inside the synthesized `register`:
read its `_on`, dispatch on the path argument's type, and record the
annotation dict as mutated by any aliased `setdefault`. -/
def runMethod (cN : String) (σ : Store) (n : String) :
    Store × List RegEvent :=
  match alookup σ n with
  | none => (σ, [])
  | some a =>
    match a.path with
    | PathArg.single p =>
      let r := do_register cN a.verb p a.opts n
      (storeSet σ n { a with opts := r.1 }, [r.2])
    | PathArg.multi es =>
      let r := es.foldl (procElem cN a.verb n) (a.opts, [])
      (storeSet σ n { a with opts := r.1 }, r.2)
    | PathArg.bad => (σ, [])

/-- The `for _method in methods` loop of the synthesized `register`. -/
def runMethods (cN : String) : List String → Store → Store × List RegEvent
  | [], σ => (σ, [])
  | n :: rest, σ =>
    let r := runMethod cN σ n
    let r2 := runMethods cN rest r.1
    (r2.1, r.2 ++ r2.2)

/-- A registration routine installed on (or already present on) a type:
either arbitrary pre-existing code (`base`), the annotation-driven
`register` closure over a method set (`onlyAnn`), or the `bridge` that
runs the annotation-driven registration first and the original routine
second. -/
inductive Routine where
  | base (f : Store → Store × List RegEvent)
  | onlyAnn (names : List String)
  | bridge (names : List String) (orig : Routine)

/-- Invoking a registration routine on an instance of class `cN`: returns
the mutated annotation store and the trace of calls issued to the external
server, in order. -/
def run (cN : String) : Routine → Store → Store × List RegEvent
  | Routine.base f, σ => f σ
  | Routine.onlyAnn ns, σ => runMethods cN ns σ
  | Routine.bridge ns orig, σ =>
    let r := runMethods cN ns σ
    let r2 := run cN orig r.1
    (r2.1, r.2 ++ r2.2)

/-- `register_proxy(methods, orig_register)` from the source: the plain
annotation-driven `register` if there was no original attribute, else the
`bridge` wrapper calling `register` first and `orig_register` second. -/
def register_proxy (names : List String) : Option Routine → Routine
  | none => Routine.onlyAnn names
  | some orig => Routine.bridge names orig

/-- A type being finalized: its name, its directly declared methods with
their (optional) pending annotations — the `cls.__dict__` scan source —
and its directly declared `register` attribute, if any. -/
structure PyClass where
  clsName : String
  methods : List (String × Option Annotation)
  register : Option Routine

/-- The annotated methods collected by `servelet`'s scan of `cls.__dict__`
(callables carrying an `_on` attribute). -/
def annotated (cls : PyClass) : List (String × Annotation) :=
  cls.methods.filterMap (fun m =>
    match m.2 with
    | some a => some (m.1, a)
    | none => none)

/-- `servelet` from the source: if the scan finds at least one annotated
method, install `register_proxy(methods, cls.__dict__.get("register"))`
as the type's `register`; otherwise return the type unmodified. -/
def servelet (cls : PyClass) : PyClass :=
  let ms := annotated cls
  if ms.length > 0 then
    { cls with register := some (register_proxy (ms.map (fun m => m.1)) cls.register) }
  else cls

/-- The initial annotation store of a class: each annotated method's
`_on` as created at decoration time. -/
def initialStore (cls : PyClass) : Store :=
  annotated cls

/-- The trace of external-server calls produced by invoking a class's
`register` attribute once on the given store (empty if the class has no
`register`). -/
def traceOf (cls : PyClass) (σ : Store) : List RegEvent :=
  match cls.register with
  | some rt => (run cls.clsName rt σ).2
  | none => []

/-! ### Derived facts about `setdefault` and the annotation store -/

theorem alookup_append_single (d : Options) (k : String) (v : PyVal)
    (q : String) :
    alookup (d ++ [(k, v)]) q =
      match alookup d q with
      | some w => some w
      | none => if k = q then some v else none := by
  rw [alookup_append]
  cases alookup d q <;> simp [alookup]

theorem setdefault_cases (d : Options) (k : String) (v : PyVal) :
    setdefault d k v = d ∨
      (alookup d k = none ∧ setdefault d k v = d ++ [(k, v)]) := by
  unfold setdefault
  cases h : alookup d k <;> simp [h]

theorem alookup_setdefault_self (d : Options) (k : String) (v : PyVal) :
    alookup (setdefault d k v) k = some ((alookup d k).getD v) := by
  unfold setdefault
  cases h : alookup d k with
  | none => simp [alookup_append_single, h]
  | some w => simp [h]

theorem setdefault_of_present (d : Options) (k : String) (v w : PyVal)
    (h : alookup d k = some w) : setdefault d k v = d := by
  unfold setdefault
  rw [h]

theorem setdefault_idem (d : Options) (k : String) (v : PyVal) :
    setdefault (setdefault d k v) k v = setdefault d k v :=
  setdefault_of_present _ _ _ _ (alookup_setdefault_self d k v)

theorem storeSet_lookup_self (σ : Store) (n : String) (a a' : Annotation)
    (h : alookup σ n = some a) : alookup (storeSet σ n a') n = some a' := by
  induction σ with
  | nil => simp [alookup] at h
  | cons kv rest ih =>
    by_cases hk : kv.1 = n
    · simp [storeSet, alookup, hk]
    · simp only [alookup, hk, if_false] at h
      simp [storeSet, alookup, hk, ih h]

theorem storeSet_lookup_other (σ : Store) (n m : String) (a' : Annotation)
    (h : m ≠ n) : alookup (storeSet σ n a') m = alookup σ m := by
  induction σ with
  | nil => simp [storeSet]
  | cons kv rest ih =>
    by_cases hk : kv.1 = n <;> by_cases hm : kv.1 = m <;>
      simp_all [storeSet, alookup]

theorem storeSet_self (σ : Store) (n : String) (a : Annotation)
    (h : alookup σ n = some a) : storeSet σ n a = σ := by
  induction σ with
  | nil => simp [alookup] at h
  | cons kv rest ih =>
    by_cases hk : kv.1 = n
    · simp only [alookup, hk, if_true, Option.some_inj] at h
      cases kv
      simp_all [storeSet]
    · simp only [alookup, hk, if_false] at h
      simp [storeSet, hk, ih h]

/-! ### Registration keys and the store skeleton

The identity of a registration — everything the external server receives
except the options dict — is its `EvKey`.  The `skeleton` of a store is
the opts-free part of every annotation; registration keys depend only on
the skeleton, and invoking registration routines never changes the
skeleton (only options dicts are mutated, by `setdefault`). -/

/-- The opts-free identity of a registration call. -/
def evKey (e : RegEvent) : String × List Char × String × String :=
  (e.verb, e.pattern, e.handler, e.clsName)

/-- The opts-free part of a store: method name, verb and path argument of
every annotation. -/
def skeleton (σ : Store) : List (String × String × PathArg) :=
  σ.map (fun x => (x.1, x.2.verb, x.2.path))

/-- Registration keys contributed by one element of an iterable path
argument. -/
def elemKeys (cN v h : String) : PathElem → List (String × List Char × String × String)
  | PathElem.str p => [(v, transform_path p, h, cN)]
  | PathElem.pair p _ => [(v, transform_path p, h, cN)]
  | PathElem.bad => []

/-- Registration keys contributed by one method, read off the skeleton. -/
def methodKeys (cN : String) (sk : List (String × String × PathArg))
    (n : String) : List (String × List Char × String × String) :=
  match alookup sk n with
  | none => []
  | some (v, PathArg.single p) => [(v, transform_path p, n, cN)]
  | some (v, PathArg.multi es) => es.flatMap (elemKeys cN v n)
  | some (_, PathArg.bad) => []

theorem alookup_skeleton (σ : Store) (n : String) :
    alookup (skeleton σ) n = (alookup σ n).map (fun a => (a.verb, a.path)) := by
  induction σ with
  | nil => simp [skeleton, alookup]
  | cons kv rest ih =>
    by_cases hk : kv.1 = n <;> simp_all [skeleton, alookup]

theorem skeleton_storeSet (σ : Store) (n : String) (a a' : Annotation)
    (h : alookup σ n = some a) (hv : a'.verb = a.verb) (hp : a'.path = a.path) :
    skeleton (storeSet σ n a') = skeleton σ := by
  induction σ with
  | nil => simp [storeSet]
  | cons kv rest ih =>
    by_cases hk : kv.1 = n
    · simp only [alookup, hk, if_true, Option.some_inj] at h
      simp [storeSet, skeleton, hk, hv, hp, h]
    · simp only [alookup, hk, if_false] at h
      have := ih h
      simp_all [storeSet, skeleton]

theorem procElem_events (cN v h : String) (acc : Options × List RegEvent)
    (e : PathElem) :
    ((procElem cN v h acc e).2).map evKey =
      acc.2.map evKey ++ elemKeys cN v h e := by
  cases e <;> simp [procElem, elemKeys, do_register, evKey]

theorem procElems_events (cN v h : String) (es : List PathElem) :
    ∀ b evs, ((es.foldl (procElem cN v h) (b, evs)).2).map evKey =
      evs.map evKey ++ es.flatMap (elemKeys cN v h) := by
  induction es with
  | nil => intro b evs; simp
  | cons e rest ih =>
    intro b evs
    rw [List.foldl_cons]
    cases e <;> simp [procElem, do_register, ih, evKey, elemKeys]

theorem runMethod_events (cN : String) (σ : Store) (n : String) :
    ((runMethod cN σ n).2).map evKey = methodKeys cN (skeleton σ) n := by
  unfold runMethod methodKeys
  rw [alookup_skeleton]
  cases h : alookup σ n with
  | none => simp
  | some a =>
    cases hp : a.path with
    | single p => simp [hp, do_register, evKey]
    | multi es => simpa [hp] using procElems_events cN a.verb n es a.opts []
    | bad => simp [hp]

/-- The evolution of the base-options dict across the per-element loop:
only the aliased `setdefault` of plain-string elements changes it. -/
def baseStep (b : Options) : PathElem → Options
  | PathElem.str _ => setdefault b "add_stopper" (PyVal.vbool true)
  | PathElem.pair _ _ => b
  | PathElem.bad => b

theorem procElems_base (cN v h : String) (es : List PathElem) :
    ∀ b evs, ((es.foldl (procElem cN v h) (b, evs)).1) = es.foldl baseStep b := by
  induction es with
  | nil => intro b evs; simp
  | cons e rest ih =>
    intro b evs
    cases e <;> simp [procElem, do_register, baseStep, ih]

/-- The final state of a method's annotation dict after one pass of the
synthesized `register` over that method. -/
def newOpts (a : Annotation) : Options :=
  match a.path with
  | PathArg.single _ => setdefault a.opts "add_stopper" (PyVal.vbool true)
  | PathArg.multi es => es.foldl baseStep a.opts
  | PathArg.bad => a.opts

theorem runMethod_store (cN : String) (σ : Store) (n : String) :
    (runMethod cN σ n).1 =
      match alookup σ n with
      | none => σ
      | some a => storeSet σ n { a with opts := newOpts a } := by
  unfold runMethod newOpts
  cases h : alookup σ n with
  | none => simp
  | some a =>
    cases hp : a.path with
    | single p => simp [hp, do_register]
    | multi es => simp [hp, procElems_base]
    | bad =>
      have h2 : ({ verb := a.verb, path := PathArg.bad, opts := a.opts } : Annotation) = a := by
        rw [← hp]
      simp [hp, h2, storeSet_self σ n a h]

theorem skeleton_runMethod (cN : String) (σ : Store) (n : String) :
    skeleton (runMethod cN σ n).1 = skeleton σ := by
  rw [runMethod_store]
  cases h : alookup σ n with
  | none => rfl
  | some a => exact skeleton_storeSet σ n a _ h rfl rfl

theorem skeleton_runMethods (cN : String) (ns : List String) :
    ∀ σ, skeleton (runMethods cN ns σ).1 = skeleton σ := by
  induction ns with
  | nil => intro σ; rfl
  | cons n rest ih =>
    intro σ
    simp [runMethods, ih, skeleton_runMethod]

/-- Master trace lemma: the keys of the registrations issued by the
annotation-driven `register` are determined by the store skeleton alone,
one block per method, in method order. -/
theorem runMethods_events (cN : String) (ns : List String) :
    ∀ σ, ((runMethods cN ns σ).2).map evKey =
      ns.flatMap (methodKeys cN (skeleton σ)) := by
  induction ns with
  | nil => intro σ; simp [runMethods]
  | cons n rest ih =>
    intro σ
    simp [runMethods, runMethod_events, ih, skeleton_runMethod]

theorem foldl_baseStep_cases (es : List PathElem) :
    ∀ b, es.foldl baseStep b = b ∨
      (alookup b "add_stopper" = none ∧
       es.foldl baseStep b = b ++ [("add_stopper", PyVal.vbool true)]) := by
  induction es with
  | nil => intro b; left; rfl
  | cons e rest ih =>
    intro b
    cases e with
    | pair p o => simpa [baseStep] using ih b
    | bad => simpa [baseStep] using ih b
    | str p =>
      rcases setdefault_cases b "add_stopper" (PyVal.vbool true) with hs | ⟨hnone, hs⟩
      · simpa [baseStep, hs] using ih b
      · rcases ih (setdefault b "add_stopper" (PyVal.vbool true)) with h2 | ⟨h2none, h2⟩
        · right
          refine ⟨hnone, ?_⟩
          rw [hs] at h2
          simp [baseStep, hs, h2]
        · exfalso
          rw [alookup_setdefault_self] at h2none
          exact Option.noConfusion h2none

theorem newOpts_cases (a : Annotation) :
    newOpts a = a.opts ∨
      (alookup a.opts "add_stopper" = none ∧
       newOpts a = a.opts ++ [("add_stopper", PyVal.vbool true)]) := by
  unfold newOpts
  cases a.path with
  | single p => exact setdefault_cases a.opts _ _
  | multi es => exact foldl_baseStep_cases es a.opts
  | bad => left; rfl

theorem foldl_baseStep_idem (es : List PathElem) (b : Options) :
    es.foldl baseStep (es.foldl baseStep b) = es.foldl baseStep b := by
  rcases foldl_baseStep_cases es b with h | ⟨hnone, h⟩
  · rw [h, h]
  · rw [h]
    rcases foldl_baseStep_cases es (b ++ [("add_stopper", PyVal.vbool true)]) with
      h2 | ⟨h2none, h2⟩
    · rw [h2]
    · exfalso
      rw [alookup_append_single, hnone] at h2none
      simp at h2none

theorem newOpts_idem (a : Annotation) :
    newOpts { a with opts := newOpts a } = newOpts a := by
  unfold newOpts
  cases hp : a.path with
  | single p => simpa [hp] using setdefault_idem a.opts "add_stopper" (PyVal.vbool true)
  | multi es => simpa [hp] using foldl_baseStep_idem es a.opts
  | bad => simp [hp]

/-- A store entry is stable when one more pass of the registration loop
would leave its options dict unchanged. -/
def entryStable (σ : Store) (n : String) : Prop :=
  ∀ a, alookup σ n = some a → newOpts a = a.opts

theorem runMethod_fixed (cN : String) (σ : Store) (n : String)
    (h : entryStable σ n) : (runMethod cN σ n).1 = σ := by
  rw [runMethod_store]
  cases hl : alookup σ n with
  | none => rfl
  | some a =>
    have ha := h a hl
    show storeSet σ n { a with opts := newOpts a } = σ
    rw [ha]
    exact storeSet_self σ n a hl

theorem entryStable_after (cN : String) (σ : Store) (n : String) :
    entryStable (runMethod cN σ n).1 n := by
  rw [runMethod_store]
  cases hl : alookup σ n with
  | none =>
    intro a ha
    rw [hl] at ha
    exact Option.noConfusion ha
  | some a =>
    intro a' ha'
    rw [storeSet_lookup_self σ n a _ hl] at ha'
    cases ha'
    exact newOpts_idem a

theorem entryStable_preserved (cN : String) (σ : Store) (n m : String)
    (h : entryStable σ m) : entryStable (runMethod cN σ n).1 m := by
  by_cases hnm : m = n
  · subst hnm
    exact entryStable_after cN σ m
  · intro a ha
    rw [runMethod_store] at ha
    cases hl : alookup σ n with
    | none =>
      rw [hl] at ha
      exact h a ha
    | some a0 =>
      rw [hl] at ha
      rw [storeSet_lookup_other σ n m _ hnm] at ha
      exact h a ha

theorem entryStable_preserved_many (cN : String) (ns : List String) :
    ∀ σ m, entryStable σ m → entryStable (runMethods cN ns σ).1 m := by
  induction ns with
  | nil => intro σ m h; exact h
  | cons n rest ih =>
    intro σ m h
    exact ih _ m (entryStable_preserved cN σ n m h)

theorem runMethods_stable (cN : String) (ns : List String) :
    ∀ σ n, n ∈ ns → entryStable (runMethods cN ns σ).1 n := by
  induction ns with
  | nil => intro σ n h; cases h
  | cons m rest ih =>
    intro σ n hmem
    rcases List.mem_cons.mp hmem with rfl | hmem2
    · by_cases hr : n ∈ rest
      · exact ih _ n hr
      · exact entryStable_preserved_many cN rest _ n (entryStable_after cN σ n)
    · exact ih _ n hmem2

theorem runMethods_fixed (cN : String) (ns : List String) :
    ∀ σ, (∀ n, n ∈ ns → entryStable σ n) → (runMethods cN ns σ).1 = σ := by
  induction ns with
  | nil => intro σ _; rfl
  | cons n rest ih =>
    intro σ h
    have hn := runMethod_fixed cN σ n (h n (List.mem_cons_self n rest))
    show (runMethods cN rest (runMethod cN σ n).1).1 = σ
    rw [hn]
    exact ih σ (fun m hm => h m (List.mem_cons_of_mem n hm))

/-- The store reached after one pass of the annotation-driven registration
is a fixed point: further passes leave every annotation unchanged. -/
theorem runMethods_idem (cN : String) (ns : List String) (σ : Store) :
    (runMethods cN ns ((runMethods cN ns σ).1)).1 = (runMethods cN ns σ).1 :=
  runMethods_fixed cN ns _ (fun n hn => runMethods_stable cN ns σ n hn)

/-- How an annotation's options dict can change across registration
passes: not at all, or by appending the missing `add_stopper` default. -/
def optsEvolves (o o' : Options) : Prop :=
  o' = o ∨ (alookup o "add_stopper" = none ∧
    o' = o ++ [("add_stopper", PyVal.vbool true)])

theorem optsEvolves_trans (o o1 o2 : Options) (h1 : optsEvolves o o1)
    (h2 : optsEvolves o1 o2) : optsEvolves o o2 := by
  rcases h1 with rfl | ⟨hnone, rfl⟩
  · exact h2
  · rcases h2 with rfl | ⟨h2none, rfl⟩
    · exact Or.inr ⟨hnone, rfl⟩
    · exfalso
      rw [alookup_append_single, hnone] at h2none
      simp at h2none

theorem runMethod_entry (cN : String) (σ : Store) (n m : String)
    (a' : Annotation) (h : alookup (runMethod cN σ n).1 m = some a') :
    ∃ a, alookup σ m = some a ∧ a'.verb = a.verb ∧ a'.path = a.path ∧
      optsEvolves a.opts a'.opts := by
  rw [runMethod_store] at h
  cases hl : alookup σ n with
  | none =>
    rw [hl] at h
    exact ⟨a', h, rfl, rfl, Or.inl rfl⟩
  | some a0 =>
    rw [hl] at h
    by_cases hnm : m = n
    · subst hnm
      rw [storeSet_lookup_self σ m a0 _ hl] at h
      cases h
      refine ⟨a0, hl, rfl, rfl, ?_⟩
      rcases newOpts_cases a0 with h1 | ⟨h1, h2⟩
      · exact Or.inl h1
      · exact Or.inr ⟨h1, h2⟩
    · rw [storeSet_lookup_other σ n m _ hnm] at h
      exact ⟨a', h, rfl, rfl, Or.inl rfl⟩

/-- Per-entry effect of one full pass: verb and path are never modified,
and the options dict either is untouched or gains exactly the
`add_stopper` default at the end. -/
theorem runMethods_entry (cN : String) (ns : List String) :
    ∀ σ m a', alookup (runMethods cN ns σ).1 m = some a' →
      ∃ a, alookup σ m = some a ∧ a'.verb = a.verb ∧ a'.path = a.path ∧
        optsEvolves a.opts a'.opts := by
  induction ns with
  | nil => intro σ m a' h; exact ⟨a', h, rfl, rfl, Or.inl rfl⟩
  | cons n rest ih =>
    intro σ m a' h
    obtain ⟨a1, h1, hv1, hp1, he1⟩ := ih _ m a' h
    obtain ⟨a0, h0, hv0, hp0, he0⟩ := runMethod_entry cN σ n m a1 h1
    exact ⟨a0, h0, hv1.trans hv0, hp1.trans hp0,
      optsEvolves_trans _ _ _ he0 he1⟩

/-! ### Match semantics of compiled template patterns

`templateAtoms`/`renderAtom` decompose a compiled pattern into verbatim
characters and `(?P<nm>[^/]*)` capture groups (`transform_path_atoms`).
`TMatch ts s env` is the evident semantics of such a pattern against a
full subject string: a `lit c` atom consumes exactly the character `c`,
and a group atom — whose rendered text is the class `[^/]` under the
zero-or-more quantifier `*` — consumes any (possibly empty) run of
characters other than the path separator, recording it as the named
capture.  `env` lists the captures in pattern order. -/

inductive TMatch : List TAtom → List Char → List (List Char × List Char) → Prop where
  | nil : TMatch [] [] []
  | lit (c : Char) (ts : List TAtom) (s : List Char)
      (env : List (List Char × List Char)) :
      TMatch ts s env → TMatch (TAtom.lit c :: ts) (c :: s) env
  | group (nm g : List Char) (ts : List TAtom) (s : List Char)
      (env : List (List Char × List Char)) :
      (∀ c, c ∈ g → c ≠ '/') → TMatch ts s env →
      TMatch (TAtom.group nm :: ts) (g ++ s) ((nm, g) :: env)

theorem TMatch_lits (cs : List Char) :
    ∀ ts s env, TMatch ts s env →
      TMatch (cs.map TAtom.lit ++ ts) (cs ++ s) env := by
  induction cs with
  | nil => intro ts s env h; simpa using h
  | cons c rest ih =>
    intro ts s env h
    exact TMatch.lit c _ _ _ (ih ts s env h)

theorem TMatch_append (ts1 ts2 : List TAtom) (s1 s2 : List Char)
    (e1 e2 : List (List Char × List Char)) (h1 : TMatch ts1 s1 e1)
    (h2 : TMatch ts2 s2 e2) : TMatch (ts1 ++ ts2) (s1 ++ s2) (e1 ++ e2) := by
  induction h1 with
  | nil => simpa using h2
  | lit c ts s env hm ih => exact TMatch.lit c _ _ _ ih
  | group nm g ts s env hg hm ih =>
    rw [List.cons_append, List.append_assoc]
    exact TMatch.group nm g _ _ _ hg ih

/-! ### `glob_to_regex`

The source builds a regex source string character by character —
`*` becomes `.*`, `?` becomes `.`, anything else is `re.escape`d — and
compiles `"\A" + res + "\Z"` with `re.IGNORECASE`.  We embed the string
construction faithfully and give the emitted regex fragment a semantics:
a parser (`parseRegex`) recognizes start/end anchors, `.`, the postfix
quantifier `*` and escaped literals, and `PMatch` is the evident matching
relation of the parsed pieces, case-insensitively when the `IGNORECASE`
flag is set. -/

/-- The characters Python's `re.escape` prefixes with a backslash
(CPython's `_special_chars_map`). -/
def SPECIAL_CHARS : List Char :=
  ['(', ')', '[', ']', '\x7b', '\x7d', '?', '*', '+', '-', '|', '^', '$',
   '\\', '.', '&', '~', '#', ' ', '\t', '\n', '\r', '\x0b', '\x0c']

/-- Python `re.escape` on one character. -/
def re_escape_char (c : Char) : List Char :=
  if c ∈ SPECIAL_CHARS then ['\\', c] else [c]

/-- The loop body of `glob_to_regex`: the regex text accumulated in `res`. -/
def glob_body : List Char → List Char
  | [] => []
  | c :: g =>
    (if c = '*' then ['.', '*']
     else if c = '?' then ['.']
     else re_escape_char c) ++ glob_body g

/-- `glob_to_regex` from the source: the pattern source string
`"\A" + res + "\Z"` together with the `re.IGNORECASE` flag. -/
def glob_to_regex (glob : List Char) : List Char × Bool :=
  (['\\', 'A'] ++ glob_body glob ++ ['\\', 'Z'], true)

/-- Tokens of the regex fragment emitted by `glob_to_regex`: `.`, the
quantifier `*`, escaped/plain literals, and the `\A`/`\Z` anchors.  Any
other unescaped special character is not part of the fragment. -/
inductive RTok where
  | dot
  | star
  | lit (c : Char)
  | anchA
  | anchZ
deriving DecidableEq

/-- Tokenizer for the emitted regex fragment. -/
def tokenize : List Char → Option (List RTok)
  | [] => some []
  | c :: rest =>
    if c = '\\' then
      match rest with
      | [] => none
      | d :: rest2 =>
        (tokenize rest2).map (fun ts =>
          (if d = 'A' then RTok.anchA
           else if d = 'Z' then RTok.anchZ
           else RTok.lit d) :: ts)
    else if c = '.' then (tokenize rest).map (fun ts => RTok.dot :: ts)
    else if c = '*' then (tokenize rest).map (fun ts => RTok.star :: ts)
    else if c ∈ SPECIAL_CHARS then none
    else (tokenize rest).map (fun ts => RTok.lit c :: ts)

/-- Base of a regex piece: `.` or a literal character. -/
inductive RBase where
  | dot
  | lit (c : Char)
deriving DecidableEq

/-- A regex piece: a base possibly under the `*` quantifier. -/
structure Piece where
  base : RBase
  starred : Bool
deriving DecidableEq

/-- Group the token list into pieces, attaching each postfix `*` to the
preceding atom; fails on a quantifier with no atom or a stray anchor. -/
def toPieces : List RTok → Option (List Piece)
  | [] => some []
  | RTok.dot :: RTok.star :: ts => (toPieces ts).map (fun ps => ⟨RBase.dot, true⟩ :: ps)
  | RTok.dot :: ts => (toPieces ts).map (fun ps => ⟨RBase.dot, false⟩ :: ps)
  | RTok.lit c :: RTok.star :: ts => (toPieces ts).map (fun ps => ⟨RBase.lit c, true⟩ :: ps)
  | RTok.lit c :: ts => (toPieces ts).map (fun ps => ⟨RBase.lit c, false⟩ :: ps)
  | RTok.star :: _ => none
  | RTok.anchA :: _ => none
  | RTok.anchZ :: _ => none

/-- Parse a regex source string of the emitted fragment: presence of a
leading `\A` anchor, the pieces, and presence of a trailing `\Z` anchor. -/
def parseRegex (p : List Char) : Option (Bool × List Piece × Bool) :=
  match tokenize p with
  | none => none
  | some ts =>
    let s1 := match ts with
      | RTok.anchA :: r => (true, r)
      | _ => (false, ts)
    let s2 := if s1.2.getLast? = some RTok.anchZ then (true, s1.2.dropLast)
      else (false, s1.2)
    match toPieces s2.2 with
    | none => none
    | some ps => some (s1.1, ps, s2.1)

/-- Matching of one base against one subject character, honouring the
case-insensitivity flag.  `.` matches any character except a newline —
`glob_to_regex` compiles without `re.DOTALL`, and in Python's default
mode the dot does not match `\n`. -/
def baseMatch (ci : Bool) : RBase → Char → Prop
  | RBase.dot, d => ¬d = '\n'
  | RBase.lit c, d => if ci then c.toLower = d.toLower else c = d

/-- Matching of a piece list against a complete subject string: an
unstarred piece consumes exactly one matching character, a starred piece
any (possibly empty) run of matching characters. -/
inductive PMatch (ci : Bool) : List Piece → List Char → Prop where
  | nil : PMatch ci [] []
  | once (b : RBase) (c : Char) (ps : List Piece) (s : List Char) :
      baseMatch ci b c → PMatch ci ps s → PMatch ci (⟨b, false⟩ :: ps) (c :: s)
  | star_skip (b : RBase) (ps : List Piece) (s : List Char) :
      PMatch ci ps s → PMatch ci (⟨b, true⟩ :: ps) s
  | star_cons (b : RBase) (c : Char) (ps : List Piece) (s : List Char) :
      baseMatch ci b c → PMatch ci (⟨b, true⟩ :: ps) s →
      PMatch ci (⟨b, true⟩ :: ps) (c :: s)

/-- A compiled pattern (source string plus flag) accepts a subject when
some split of the subject has a middle part matched by the pieces, with
the anchors forcing the prefix/suffix to be empty. -/
def regexAccepts (pat : List Char) (ci : Bool) (s : List Char) : Prop :=
  ∃ st ps en, parseRegex pat = some (st, ps, en) ∧
    ∃ pre mid post, s = pre ++ mid ++ post ∧
      (st = true → pre = []) ∧ (en = true → post = []) ∧ PMatch ci ps mid

/-- Glob matching as the program implements it: `*` — compiled to the
plain-mode wildcard `.*` — matches any possibly empty run of characters
*other than newline*, `?` — compiled to `.` — exactly one character
other than newline, and anything else itself, case-insensitively (a
literal newline in the glob is escaped to `\n` and does match one). -/
inductive GMatch : List Char → List Char → Prop where
  | nil : GMatch [] []
  | star_skip (g : List Char) (s : List Char) :
      GMatch g s → GMatch ('*' :: g) s
  | star_cons (c : Char) (g : List Char) (s : List Char) :
      c ≠ '\n' → GMatch ('*' :: g) s → GMatch ('*' :: g) (c :: s)
  | qmark (c : Char) (g : List Char) (s : List Char) :
      c ≠ '\n' → GMatch g s → GMatch ('?' :: g) (c :: s)
  | lit (c d : Char) (g : List Char) (s : List Char) :
      c ≠ '*' → c ≠ '?' → c.toLower = d.toLower →
      GMatch g s → GMatch (c :: g) (d :: s)

/-- The piece a single glob character compiles to. -/
def compilePiece (c : Char) : Piece :=
  if c = '*' then ⟨RBase.dot, true⟩
  else if c = '?' then ⟨RBase.dot, false⟩
  else ⟨RBase.lit c, false⟩

/-- The token list a single glob character contributes. -/
def tokChar (c : Char) : List RTok :=
  if c = '*' then [RTok.dot, RTok.star]
  else if c = '?' then [RTok.dot]
  else [RTok.lit c]

theorem tokenize_dot (x : List Char) :
    tokenize ('.' :: x) = (tokenize x).map (fun ts => RTok.dot :: ts) := by
  rw [tokenize.eq_def]
  simp

theorem tokenize_star (x : List Char) :
    tokenize ('*' :: x) = (tokenize x).map (fun ts => RTok.star :: ts) := by
  rw [tokenize.eq_def]
  simp

theorem tokenize_escaped (x : List Char) (c : Char) (h : c ∈ SPECIAL_CHARS) :
    tokenize ('\\' :: c :: x) = (tokenize x).map (fun ts => RTok.lit c :: ts) := by
  have hAZ : ∀ y ∈ SPECIAL_CHARS, ¬y = 'A' ∧ ¬y = 'Z' := by decide
  obtain ⟨h1, h2⟩ := hAZ c h
  rw [tokenize.eq_def]
  simp [h1, h2]

theorem tokenize_plain (x : List Char) (c : Char) (h : ¬c ∈ SPECIAL_CHARS) :
    tokenize (c :: x) = (tokenize x).map (fun ts => RTok.lit c :: ts) := by
  have h1 : ¬c = '\\' := fun e => h (by rw [e]; decide)
  have h2 : ¬c = '.' := fun e => h (by rw [e]; decide)
  have h3 : ¬c = '*' := fun e => h (by rw [e]; decide)
  rw [tokenize.eq_def]
  simp [h1, h2, h3, h]

theorem tokenize_anchA (x : List Char) :
    tokenize ('\\' :: 'A' :: x) = (tokenize x).map (fun ts => RTok.anchA :: ts) := by
  rw [tokenize.eq_def]
  simp

theorem tokenize_anchZ (x : List Char) :
    tokenize ('\\' :: 'Z' :: x) = (tokenize x).map (fun ts => RTok.anchZ :: ts) := by
  rw [tokenize.eq_def]
  simp

/-- Tokenizing the accumulated glob body before any remainder yields the
per-character tokens followed by the remainder's tokens. -/
theorem tokenize_glob_body (g : List Char) :
    ∀ x, tokenize (glob_body g ++ x) =
      (tokenize x).map (fun ts => g.flatMap tokChar ++ ts) := by
  induction g with
  | nil =>
    intro x
    cases h : tokenize x <;> simp [glob_body, h]
  | cons c g' ih =>
    intro x
    by_cases h1 : c = '*'
    · subst h1
      have he : glob_body ('*' :: g') ++ x = '.' :: '*' :: (glob_body g' ++ x) := by
        simp [glob_body]
      rw [he, tokenize_dot, tokenize_star, ih x]
      cases tokenize x <;> simp [tokChar]
    · by_cases h2 : c = '?'
      · subst h2
        have he : glob_body ('?' :: g') ++ x = '.' :: (glob_body g' ++ x) := by
          simp [glob_body, h1]
        rw [he, tokenize_dot, ih x]
        cases tokenize x <;> simp [tokChar, h1]
      · by_cases h3 : c ∈ SPECIAL_CHARS
        · have he : glob_body (c :: g') ++ x = '\\' :: c :: (glob_body g' ++ x) := by
            simp [glob_body, re_escape_char, h1, h2, h3]
          rw [he, tokenize_escaped _ c h3, ih x]
          cases tokenize x <;> simp [tokChar, h1, h2]
        · have he : glob_body (c :: g') ++ x = c :: (glob_body g' ++ x) := by
            simp [glob_body, re_escape_char, h1, h2, h3]
          rw [he, tokenize_plain _ c h3, ih x]
          cases tokenize x <;> simp [tokChar, h1, h2]

theorem tokChar_head_ne_star (g : List Char) (t : RTok) (ts : List RTok)
    (h : g.flatMap tokChar = t :: ts) : t ≠ RTok.star := by
  cases g with
  | nil => simp at h
  | cons c g' =>
    by_cases h1 : c = '*' <;> by_cases h2 : c = '?' <;>
      simp [tokChar, h1, h2] at h <;>
      rcases h with ⟨h3, _⟩ <;> rw [← h3] <;> simp

theorem toPieces_glob (g : List Char) :
    toPieces (g.flatMap tokChar) = some (g.map compilePiece) := by
  induction g with
  | nil => simp [toPieces]
  | cons c g' ih =>
    by_cases h1 : c = '*'
    · subst h1
      have he : ('*' :: g').flatMap tokChar =
          RTok.dot :: RTok.star :: g'.flatMap tokChar := by
        simp [tokChar]
      rw [he, toPieces, ih]
      simp [compilePiece]
    · by_cases h2 : c = '?'
      · subst h2
        have he : ('?' :: g').flatMap tokChar =
            RTok.dot :: g'.flatMap tokChar := by
          simp [tokChar, h1]
        rw [he]
        cases hx : g'.flatMap tokChar with
        | nil =>
          have hg : g' = [] := by
            cases g' with
            | nil => rfl
            | cons a b =>
              by_cases ha1 : a = '*' <;> by_cases ha2 : a = '?' <;>
                simp [tokChar, ha1, ha2] at hx
          subst hg
          have h0 : toPieces [RTok.dot] = some [(⟨RBase.dot, false⟩ : Piece)] := rfl
          simp [h0, compilePiece, h1]
        | cons t ts =>
          have hns := tokChar_head_ne_star g' t ts hx
          rw [hx] at ih
          cases t with
          | star => exact absurd rfl hns
          | dot =>
            rw [show toPieces (RTok.dot :: RTok.dot :: ts)
                = (toPieces (RTok.dot :: ts)).map
                  (fun ps => (⟨RBase.dot, false⟩ : Piece) :: ps) from rfl, ih]
            simp [compilePiece, h1]
          | lit e =>
            rw [show toPieces (RTok.dot :: RTok.lit e :: ts)
                = (toPieces (RTok.lit e :: ts)).map
                  (fun ps => (⟨RBase.dot, false⟩ : Piece) :: ps) from rfl, ih]
            simp [compilePiece, h1]
          | anchA =>
            rw [show toPieces (RTok.dot :: RTok.anchA :: ts)
                = (toPieces (RTok.anchA :: ts)).map
                  (fun ps => (⟨RBase.dot, false⟩ : Piece) :: ps) from rfl, ih]
            simp [compilePiece, h1]
          | anchZ =>
            rw [show toPieces (RTok.dot :: RTok.anchZ :: ts)
                = (toPieces (RTok.anchZ :: ts)).map
                  (fun ps => (⟨RBase.dot, false⟩ : Piece) :: ps) from rfl, ih]
            simp [compilePiece, h1]
      · have he : (c :: g').flatMap tokChar =
            RTok.lit c :: g'.flatMap tokChar := by
          simp [tokChar, h1, h2]
        rw [he]
        cases hx : g'.flatMap tokChar with
        | nil =>
          have hg : g' = [] := by
            cases g' with
            | nil => rfl
            | cons a b =>
              by_cases ha1 : a = '*' <;> by_cases ha2 : a = '?' <;>
                simp [tokChar, ha1, ha2] at hx
          subst hg
          have h0 : toPieces [RTok.lit c] = some [(⟨RBase.lit c, false⟩ : Piece)] := rfl
          simp [h0, compilePiece, h1, h2]
        | cons t ts =>
          have hns := tokChar_head_ne_star g' t ts hx
          rw [hx] at ih
          cases t with
          | star => exact absurd rfl hns
          | dot =>
            rw [show toPieces (RTok.lit c :: RTok.dot :: ts)
                = (toPieces (RTok.dot :: ts)).map
                  (fun ps => (⟨RBase.lit c, false⟩ : Piece) :: ps) from rfl, ih]
            simp [compilePiece, h1, h2]
          | lit e =>
            rw [show toPieces (RTok.lit c :: RTok.lit e :: ts)
                = (toPieces (RTok.lit e :: ts)).map
                  (fun ps => (⟨RBase.lit c, false⟩ : Piece) :: ps) from rfl, ih]
            simp [compilePiece, h1, h2]
          | anchA =>
            rw [show toPieces (RTok.lit c :: RTok.anchA :: ts)
                = (toPieces (RTok.anchA :: ts)).map
                  (fun ps => (⟨RBase.lit c, false⟩ : Piece) :: ps) from rfl, ih]
            simp [compilePiece, h1, h2]
          | anchZ =>
            rw [show toPieces (RTok.lit c :: RTok.anchZ :: ts)
                = (toPieces (RTok.anchZ :: ts)).map
                  (fun ps => (⟨RBase.lit c, false⟩ : Piece) :: ps) from rfl, ih]
            simp [compilePiece, h1, h2]

theorem tokenize_glob (g : List Char) :
    tokenize (glob_to_regex g).1
      = some (RTok.anchA :: (g.flatMap tokChar ++ [RTok.anchZ])) := by
  show tokenize ('\\' :: 'A' :: (glob_body g ++ ['\\', 'Z'])) = _
  rw [tokenize_anchA, tokenize_glob_body]
  rfl

/-- Parsing the pattern emitted by `glob_to_regex`: anchored at both ends,
with one piece per glob character. -/
theorem parse_glob (g : List Char) :
    parseRegex (glob_to_regex g).1 = some (true, g.map compilePiece, true) := by
  simp [parseRegex, tokenize_glob, toPieces_glob, List.getLast?_concat,
    List.dropLast_concat]

theorem compilePiece_star (c : Char) (h : compilePiece c = ⟨RBase.dot, true⟩) :
    c = '*' := by
  by_cases h1 : c = '*'
  · exact h1
  · by_cases h2 : c = '?' <;> simp [compilePiece, h1, h2] at h

theorem compilePiece_qmark (c : Char) (h : compilePiece c = ⟨RBase.dot, false⟩) :
    c = '?' := by
  by_cases h1 : c = '*'
  · simp [compilePiece, h1] at h
  · by_cases h2 : c = '?'
    · exact h2
    · simp [compilePiece, h1, h2] at h

theorem compilePiece_lit (c e : Char) (st : Bool)
    (h : compilePiece c = ⟨RBase.lit e, st⟩) :
    c = e ∧ st = false ∧ c ≠ '*' ∧ c ≠ '?' := by
  by_cases h1 : c = '*'
  · simp [compilePiece, h1] at h
  · by_cases h2 : c = '?'
    · simp [compilePiece, h1, h2] at h
    · simp [compilePiece, h1, h2] at h
      exact ⟨h.1, h.2, h1, h2⟩

theorem pmatch_to_gmatch_aux (ps : List Piece) (s : List Char)
    (h : PMatch true ps s) :
    ∀ g, ps = g.map compilePiece → GMatch g s := by
  induction h with
  | nil =>
    intro g hg
    cases g with
    | nil => exact GMatch.nil
    | cons c g' => simp at hg
  | once b c ps s hb hm ih =>
    intro g hg
    cases g with
    | nil => simp at hg
    | cons c0 g' =>
      rw [List.map_cons] at hg
      obtain ⟨h1, h2⟩ := List.cons_eq_cons.mp hg
      cases b with
      | dot =>
        have hc0 := compilePiece_qmark c0 h1.symm
        subst hc0
        exact GMatch.qmark c g' s hb (ih g' h2)
      | lit e =>
        obtain ⟨he, _, hn1, hn2⟩ := compilePiece_lit c0 e false h1.symm
        subst he
        simp only [baseMatch, if_true] at hb
        exact GMatch.lit c0 c g' s hn1 hn2 hb (ih g' h2)
  | star_skip b ps s hm ih =>
    intro g hg
    cases g with
    | nil => simp at hg
    | cons c0 g' =>
      rw [List.map_cons] at hg
      obtain ⟨h1, h2⟩ := List.cons_eq_cons.mp hg
      cases b with
      | dot =>
        have hc0 := compilePiece_star c0 h1.symm
        subst hc0
        exact GMatch.star_skip g' s (ih g' h2)
      | lit e =>
        obtain ⟨_, hfalse, _, _⟩ := compilePiece_lit c0 e true h1.symm
        exact absurd hfalse (by simp)
  | star_cons b c ps s hb hm ih =>
    intro g hg
    cases g with
    | nil => simp at hg
    | cons c0 g' =>
      rw [List.map_cons] at hg
      obtain ⟨h1, h2⟩ := List.cons_eq_cons.mp hg
      cases b with
      | dot =>
        have hc0 := compilePiece_star c0 h1.symm
        subst hc0
        exact GMatch.star_cons c g' s hb (ih ('*' :: g') hg)
      | lit e =>
        obtain ⟨_, hfalse, _, _⟩ := compilePiece_lit c0 e true h1.symm
        exact absurd hfalse (by simp)

theorem gmatch_to_pmatch (g : List Char) (s : List Char) (h : GMatch g s) :
    PMatch true (g.map compilePiece) s := by
  induction h with
  | nil => exact PMatch.nil
  | star_skip g s hm ih =>
    rw [List.map_cons, show compilePiece '*' = ⟨RBase.dot, true⟩ from rfl]
    exact PMatch.star_skip RBase.dot _ _ ih
  | star_cons c g s hnl hm ih =>
    rw [List.map_cons, show compilePiece '*' = ⟨RBase.dot, true⟩ from rfl]
    rw [List.map_cons, show compilePiece '*' = ⟨RBase.dot, true⟩ from rfl] at ih
    exact PMatch.star_cons RBase.dot c _ _ hnl ih
  | qmark c g s hnl hm ih =>
    rw [List.map_cons, show compilePiece '?' = ⟨RBase.dot, false⟩ from rfl]
    exact PMatch.once RBase.dot c _ _ hnl ih
  | lit c d g s hn1 hn2 hl hm ih =>
    rw [List.map_cons]
    have hc : compilePiece c = ⟨RBase.lit c, false⟩ := by
      simp [compilePiece, hn1, hn2]
    rw [hc]
    refine PMatch.once (RBase.lit c) d _ _ ?_ ih
    simp [baseMatch, hl]

theorem TMatch_lits_nil (cs : List Char) : TMatch (cs.map TAtom.lit) cs [] := by
  simpa using TMatch_lits cs [] [] [] TMatch.nil

theorem alookup_setdefault (d : Options) (q : String) (v : PyVal) (k : String) :
    alookup (setdefault d q v) k =
      match alookup d k with
      | some w => some w
      | none => if q = k then some v else none := by
  unfold setdefault
  cases hq : alookup d q with
  | some w =>
    cases hk : alookup d k with
    | some u => simp [hk]
    | none =>
      have hne : ¬q = k := by
        intro e
        rw [e, hk] at hq
        exact Option.noConfusion hq
      simp [hk, hne]
  | none =>
    rw [alookup_append_single]

/-- Number of path entries declared by a path argument (single string → 1,
sequence → its length). -/
def entrySpecCount : PathArg → Nat
  | PathArg.single _ => 1
  | PathArg.multi es => es.length
  | PathArg.bad => 0

/-- Well-formedness of a path argument per the spec: a string, or a
sequence of strings and (string, options) pairs. -/
def wellFormedArg : PathArg → Prop
  | PathArg.single _ => True
  | PathArg.multi es => ∀ e ∈ es, e ≠ PathElem.bad
  | PathArg.bad => False

instance (p : PathArg) : Decidable (wellFormedArg p) := by
  cases p with
  | single q => exact isTrue trivial
  | multi es => exact (inferInstance : Decidable (∀ e ∈ es, e ≠ PathElem.bad))
  | bad => exact isFalse id

/-- Well-formedness of an optional annotation lookup result. -/
def wellFormedOpt : Option Annotation → Prop
  | none => True
  | some a => wellFormedArg a.path

instance (oa : Option Annotation) : Decidable (wellFormedOpt oa) := by
  cases oa with
  | none => exact isTrue trivial
  | some a => exact (inferInstance : Decidable (wellFormedArg a.path))

theorem servelet_register_pos (cls : PyClass) (h2 : annotated cls ≠ []) :
    (servelet cls).register
      = some (register_proxy ((annotated cls).map (fun m => m.1)) cls.register) := by
  unfold servelet
  have hlen : (annotated cls).length > 0 := by
    cases hA : annotated cls with
    | nil => exact absurd hA h2
    | cons a b => simp [hA]
  simp [hlen]

theorem servelet_methods (cls : PyClass) :
    (servelet cls).methods = cls.methods := by
  unfold servelet
  by_cases hl : (annotated cls).length > 0 <;> simp [hl]

theorem servelet_clsName (cls : PyClass) :
    (servelet cls).clsName = cls.clsName := by
  unfold servelet
  by_cases hl : (annotated cls).length > 0 <;> simp [hl]

theorem annotated_servelet (cls : PyClass) :
    annotated (servelet cls) = annotated cls := by
  unfold annotated
  rw [servelet_methods]

/-! ### Concrete data for the example-level statements -/

/-- The template `rooms/{roomId}/state`. -/
def roomsTemplate : List Char :=
  ['r', 'o', 'o', 'm', 's', '/', lbrace, 'r', 'o', 'o', 'm', 'I', 'd',
   rbrace, '/', 's', 't', 'a', 't', 'e']

/-- The placeholder name `roomId`. -/
def roomIdName : List Char := ['r', 'o', 'o', 'm', 'I', 'd']

/-- The pattern text `rooms/(?P<roomId>[^/]*)/state`. -/
def roomsPattern : List Char :=
  ['r', 'o', 'o', 'm', 's', '/'] ++ groupPat roomIdName ++
    ['/', 's', 't', 'a', 't', 'e']

/-- The path segment `!abc:example.org`. -/
def roomSeg : List Char :=
  ['!', 'a', 'b', 'c', ':', 'e', 'x', 'a', 'm', 'p', 'l', 'e', '.', 'o',
   'r', 'g']

/-- The subject `rooms/!abc:example.org/state`. -/
def roomsSubject : List Char :=
  ['r', 'o', 'o', 'm', 's', '/'] ++ roomSeg ++ ['/', 's', 't', 'a', 't', 'e']

/-- The subject `rooms//state` (empty segment). -/
def roomsEmptySubject : List Char :=
  ['r', 'o', 'o', 'm', 's', '/', '/', 's', 't', 'a', 't', 'e']

/-- A class with one GET handler on the single-string path `p` and no
pre-existing `register`. -/
def cls3 : PyClass :=
  ⟨"C3", [("h", some ⟨"GET", PathArg.single ['p'], []⟩)], none⟩

/-- A class with one POST handler on a two-element path sequence and no
pre-existing `register`. -/
def cls3w : PyClass :=
  ⟨"W3", [("g", some ⟨"POST",
    PathArg.multi [PathElem.str ['q'], PathElem.str ['r']], []⟩)], none⟩

/-- A class with one annotated handler and a pre-existing `register`. -/
def cls2 : PyClass :=
  ⟨"C2", [("h", some ⟨"GET", PathArg.single ['p'], []⟩)],
   some (Routine.onlyAnn [])⟩

/-- A store with one GET annotation on the single-string path `p` with
empty base options. -/
def sigma4 : Store := [("h", ⟨"GET", PathArg.single ['p'], []⟩)]

/-- A store with one PUT annotation on the single-string path `q`. -/
def sigma4w : Store := [("h", ⟨"PUT", PathArg.single ['q'], []⟩)]

/-- The annotation of `sigma4w` before registration. -/
def ann4 : Annotation := ⟨"PUT", PathArg.single ['q'], []⟩

/-- The annotation of `sigma4w` after one registration pass. -/
def ann4' : Annotation :=
  ⟨"PUT", PathArg.single ['q'], [("add_stopper", PyVal.vbool true)]⟩

/-- Base options of the C5 example. -/
def b5 : Options := [("x", PyVal.vint 0), ("y", PyVal.vint 2)]

/-- Per-path override options of the C5 example. -/
def o5 : Options := [("x", PyVal.vint 1)]

/-- A store with one handler annotated with the sequence
`[("f", {"x": 1})]` and base options `{"x": 0, "y": 2}`. -/
def sigma5 : Store :=
  [("h", ⟨"GET", PathArg.multi [PathElem.pair ['f'] o5], b5⟩)]

/-- A store with two well-formed handlers for the C6 witness. -/
def sigma6 : Store :=
  [("a", ⟨"GET", PathArg.single ['p'], []⟩),
   ("b", ⟨"PUT", PathArg.multi [PathElem.str ['q'], PathElem.pair ['r'] []], []⟩)]

/-- A class with no annotated handlers but a pre-existing `register`. -/
def cls7 : PyClass :=
  ⟨"C7", [("x", none)], some (Routine.onlyAnn ["z"])⟩

/-! ### Character provenance of compiled templates

`transform_path` performs no escaping: every character of the compiled
pattern is either a character of the template itself or one of the fixed
punctuation characters of the substituted capture-group text
`(?P<name>[^/]*)`.  In particular no backslash is ever introduced. -/

/-- The fixed punctuation characters of the capture-group replacement
text (everything in `(?P<name>[^/]*)` apart from the name). -/
def groupChars : List Char :=
  ['(', '?', 'P', '<', '>', '[', '^', '/', ']', '*', ')']

theorem groupPat_chars (nm : List Char) (c : Char) (h : c ∈ groupPat nm) :
    c ∈ groupChars ∨ c ∈ nm := by
  unfold groupPat at h
  rcases List.mem_append.mp h with h1 | h2
  · rcases List.mem_append.mp h1 with h3 | h4
    · left
      simp only [List.mem_cons, List.not_mem_nil, or_false] at h3
      rcases h3 with rfl | rfl | rfl | rfl <;> decide
    · right
      exact h4
  · left
    simp only [List.mem_cons, List.not_mem_nil, or_false] at h2
    rcases h2 with rfl | rfl | rfl | rfl | rfl | rfl | rfl <;> decide

theorem tpGo_chars (t : List Char) :
    ∀ st c, c ∈ tpGo st t →
      c ∈ t ∨ c ∈ groupChars ∨
        (∃ nm, st = some nm ∧ (c ∈ nm ∨ c = lbrace)) := by
  induction t with
  | nil =>
    intro st c hc
    cases st with
    | none => simp [tpGo] at hc
    | some nmRev =>
      simp only [tpGo, List.mem_cons, List.mem_reverse] at hc
      rcases hc with rfl | hmem
      · exact Or.inr (Or.inr ⟨nmRev, rfl, Or.inr rfl⟩)
      · exact Or.inr (Or.inr ⟨nmRev, rfl, Or.inl hmem⟩)
  | cons d rest ih =>
    intro st c hc
    cases st with
    | none =>
      by_cases hd : d = lbrace
      · rw [tpGo, if_pos hd] at hc
        rcases ih (some []) c hc with h | h | ⟨nm, hnm, hin⟩
        · exact Or.inl (List.mem_cons_of_mem d h)
        · exact Or.inr (Or.inl h)
        · have hnm2 : nm = [] := (Option.some.inj hnm).symm
          subst hnm2
          rcases hin with hin2 | rfl
          · exact absurd hin2 (List.not_mem_nil c)
          · rw [← hd]
            exact Or.inl (List.mem_cons_self _ _)
      · rw [tpGo, if_neg hd] at hc
        rcases List.mem_cons.mp hc with rfl | hc2
        · exact Or.inl (List.mem_cons_self _ _)
        · rcases ih none c hc2 with h | h | ⟨nm, hnm, _⟩
          · exact Or.inl (List.mem_cons_of_mem d h)
          · exact Or.inr (Or.inl h)
          · exact absurd hnm (by simp)
    | some nmRev =>
      by_cases hw : wordChar d
      · rw [tpGo, if_pos hw] at hc
        rcases ih (some (d :: nmRev)) c hc with h | h | ⟨nm, hnm, hin⟩
        · exact Or.inl (List.mem_cons_of_mem d h)
        · exact Or.inr (Or.inl h)
        · have hnm2 : nm = d :: nmRev := (Option.some.inj hnm).symm
          subst hnm2
          rcases hin with hin2 | rfl
          · rcases List.mem_cons.mp hin2 with rfl | hin3
            · exact Or.inl (List.mem_cons_self _ _)
            · exact Or.inr (Or.inr ⟨nmRev, rfl, Or.inl hin3⟩)
          · exact Or.inr (Or.inr ⟨nmRev, rfl, Or.inr rfl⟩)
      · by_cases hr : d = rbrace ∧ nmRev ≠ []
        · rw [tpGo, if_neg hw, if_pos hr] at hc
          rcases List.mem_append.mp hc with h1 | h2
          · rcases groupPat_chars nmRev.reverse c h1 with h3 | h4
            · exact Or.inr (Or.inl h3)
            · exact Or.inr (Or.inr ⟨nmRev, rfl,
                Or.inl (List.mem_reverse.mp h4)⟩)
          · rcases ih none c h2 with h | h | ⟨nm, hnm, _⟩
            · exact Or.inl (List.mem_cons_of_mem d h)
            · exact Or.inr (Or.inl h)
            · exact absurd hnm (by simp)
        · rw [tpGo, if_neg hw, if_neg hr] at hc
          rcases List.mem_append.mp hc with h1 | h2
          · rcases List.mem_cons.mp h1 with rfl | h3
            · exact Or.inr (Or.inr ⟨nmRev, rfl, Or.inr rfl⟩)
            · exact Or.inr (Or.inr ⟨nmRev, rfl,
                Or.inl (List.mem_reverse.mp h3)⟩)
          · by_cases hd : d = lbrace
            · rw [if_pos hd] at h2
              rcases ih (some []) c h2 with h | h | ⟨nm, hnm, hin⟩
              · exact Or.inl (List.mem_cons_of_mem d h)
              · exact Or.inr (Or.inl h)
              · have hnm2 : nm = [] := (Option.some.inj hnm).symm
                subst hnm2
                rcases hin with hin2 | rfl
                · exact absurd hin2 (List.not_mem_nil c)
                · rw [← hd]
                  exact Or.inl (List.mem_cons_self _ _)
            · rw [if_neg hd] at h2
              rcases List.mem_cons.mp h2 with rfl | h3
              · exact Or.inl (List.mem_cons_self _ _)
              · rcases ih none c h3 with h | h | ⟨nm, hnm, _⟩
                · exact Or.inl (List.mem_cons_of_mem d h)
                · exact Or.inr (Or.inl h)
                · exact absurd hnm (by simp)

/-- Every character of a compiled pattern is a character of the template
or fixed capture-group punctuation. -/
theorem transform_path_chars (t : List Char) (c : Char)
    (h : c ∈ transform_path t) : c ∈ t ∨ c ∈ groupChars := by
  rcases tpGo_chars t none c h with h1 | h2 | ⟨nm, hnm, _⟩
  · exact Or.inl h1
  · exact Or.inr h2
  · exact absurd hnm (by simp)

/-- `transform_path` never introduces a backslash: no escaping is
performed on any template, placeholders or not. -/
theorem transform_path_no_backslash (t : List Char) (h : '\\' ∉ t) :
    '\\' ∉ transform_path t := by
  intro hc
  rcases transform_path_chars t '\\' hc with h1 | h2
  · exact h h1
  · exact absurd h2 (by decide)

/-! ### Full model of one path-sequence element

The fragment model (`PathElem`) covers only strings, well-formed
`(string, options)` pairs and non-tuple junk.  The source's loop,
however, tests `isinstance(path_aggregate, tuple)` — *any* tuple takes
the tuple branch, where Python evaluates `path_aggregate[0]`, then the
splat `{**on[2], **path_aggregate[1]}`, then calls `do_register`, whose
`transform_path` needs a string.  So a tuple with fewer than two items
raises `IndexError`, one whose second item is not a mapping or whose
first is not a string raises `TypeError`, and a longer tuple is
registered from its first two items.  `procElemFull` models this
faithfully over arbitrary Python element values. -/

/-- A Python value inside a tuple element: a string, a dict, or anything
else. -/
inductive PyObj where
  | pstr (s : List Char)
  | pdict (o : Options)
  | pother
deriving DecidableEq

/-- A Python value appearing as one element of an iterable `PATH_ARG`:
a string, a tuple of any arity, or anything else. -/
inductive PyElem where
  | estr (p : List Char)
  | etup (items : List PyObj)
  | eother
deriving DecidableEq

/-- The exceptions the loop body can raise on a malformed tuple. -/
inductive PyErr where
  | indexError
  | typeError
deriving DecidableEq

/-- One iteration of the `for path_aggregate in on[1]` loop over an
arbitrary Python element, with Python's evaluation order: `str` and
non-`tuple` values behave as in the fragment model; a `tuple` always
takes the tuple branch — `path_aggregate[0]` first (`IndexError` when
empty), then `path_aggregate[1]` inside the splat (`IndexError` for a
1-tuple, `TypeError` when not a mapping), then `transform_path`
(`TypeError` when the first item is not a string); items beyond the
first two are ignored. -/
def procElemFull (cN v h : String) (b : Options) (evs : List RegEvent) :
    PyElem → Except PyErr (Options × List RegEvent)
  | PyElem.estr p =>
    let r := do_register cN v p b h
    Except.ok (r.1, evs ++ [r.2])
  | PyElem.etup [] => Except.error PyErr.indexError
  | PyElem.etup [_] => Except.error PyErr.indexError
  | PyElem.etup (o0 :: o1 :: _) =>
    match o1 with
    | PyObj.pdict ov =>
      match o0 with
      | PyObj.pstr p =>
        let r := do_register cN v p (mergeOpts b ov) h
        Except.ok (b, evs ++ [r.2])
      | _ => Except.error PyErr.typeError
    | _ => Except.error PyErr.typeError
  | PyElem.eother => Except.ok (b, evs)

/-- The well-formed fragment a full element corresponds to, when it has
one: strings, exact `(string, options)` pairs, and non-tuple junk. -/
def elemOfPy : PyElem → Option PathElem
  | PyElem.estr p => some (PathElem.str p)
  | PyElem.etup [PyObj.pstr p, PyObj.pdict o] => some (PathElem.pair p o)
  | PyElem.etup _ => none
  | PyElem.eother => some PathElem.bad

/-- On well-formed elements the full model raises nothing and agrees with
the fragment model used by the registration machinery. -/
theorem procElemFull_agrees (cN v hm : String) (b : Options)
    (evs : List RegEvent) (e : PyElem) (pe : PathElem)
    (hh : elemOfPy e = some pe) :
    procElemFull cN v hm b evs e
      = Except.ok (procElem cN v hm (b, evs) pe) := by
  cases e with
  | estr p =>
    have hpe : pe = PathElem.str p := (Option.some.inj hh).symm
    subst hpe
    rfl
  | eother =>
    have hpe : pe = PathElem.bad := (Option.some.inj hh).symm
    subst hpe
    rfl
  | etup items =>
    match items, hh with
    | [PyObj.pstr p, PyObj.pdict o], hh =>
      have hpe : pe = PathElem.pair p o := (Option.some.inj hh).symm
      subst hpe
      rfl

/-! ### Claim theorems -/

/-- C1 (counterexample): the claim says each `{name}` placeholder compiles
to a named capture matching one or more non-separator characters, so that
the pattern from `rooms/{roomId}/state` does not match `rooms//state`.
In fact `transform_path` emits `(?P<roomId>[^/]*)` — the zero-or-more
quantifier `*` — and the compiled pattern does match `rooms//state`, with
`roomId` capturing the empty string. -/
theorem claim_C1_counterexample :
    transform_path roomsTemplate = roomsPattern ∧
    TMatch (templateAtoms roomsTemplate) roomsEmptySubject [(roomIdName, [])] := by
  constructor
  · decide
  · have hatoms : templateAtoms roomsTemplate =
        (['r', 'o', 'o', 'm', 's', '/'].map TAtom.lit) ++
          (TAtom.group roomIdName ::
            (['/', 's', 't', 'a', 't', 'e'].map TAtom.lit)) := by decide
    rw [hatoms]
    show TMatch _ (['r', 'o', 'o', 'm', 's', '/'] ++
      ([] ++ ['/', 's', 't', 'a', 't', 'e'])) _
    apply TMatch_lits
    exact TMatch.group roomIdName [] _ _ _ (fun c hc => absurd hc (by simp))
      (TMatch_lits_nil ['/', 's', 't', 'a', 't', 'e'])

/-- C1 (amended): each `{name}` placeholder is compiled into a named
capture group that matches zero or more characters excluding the path
separator `/`: wherever a capture group occurs in the compiled atoms, any
run of non-separator characters — including the empty run — is accepted
there; the pattern compiled from `rooms/{roomId}/state` matches
`rooms/!abc:example.org/state` with capture `roomId = "!abc:example.org"`
(and, per the counterexample, also matches `rooms//state` with an empty
capture). -/
theorem claim_C1_amended :
    (∀ t pre nm post s1 s2 e1 e2,
       templateAtoms t = pre ++ TAtom.group nm :: post →
       TMatch pre s1 e1 → TMatch post s2 e2 →
       ∀ g, (∀ c, c ∈ g → c ≠ '/') →
         TMatch (templateAtoms t) (s1 ++ (g ++ s2)) (e1 ++ ((nm, g) :: e2))) ∧
    transform_path roomsTemplate = (templateAtoms roomsTemplate).flatMap renderAtom ∧
    TMatch (templateAtoms roomsTemplate) roomsSubject [(roomIdName, roomSeg)] := by
  refine ⟨?_, transform_path_atoms roomsTemplate, ?_⟩
  · intro t pre nm post s1 s2 e1 e2 ht h1 h2 g hg
    rw [ht]
    exact TMatch_append pre (TAtom.group nm :: post) s1 (g ++ s2) e1
      ((nm, g) :: e2) h1 (TMatch.group nm g post s2 e2 hg h2)
  · have hatoms : templateAtoms roomsTemplate =
        (['r', 'o', 'o', 'm', 's', '/'].map TAtom.lit) ++
          (TAtom.group roomIdName ::
            (['/', 's', 't', 'a', 't', 'e'].map TAtom.lit)) := by decide
    rw [hatoms]
    show TMatch _ (['r', 'o', 'o', 'm', 's', '/'] ++
      (roomSeg ++ ['/', 's', 't', 'a', 't', 'e'])) _
    apply TMatch_lits
    exact TMatch.group roomIdName roomSeg _ _ _ (by decide)
      (TMatch_lits_nil ['/', 's', 't', 'a', 't', 'e'])

/-- C1 (witness): the general zero-or-more statement of the amended claim
applied at the rooms template with the one-character capture `x`. -/
theorem claim_C1_witness :
    TMatch (templateAtoms roomsTemplate)
      (['r', 'o', 'o', 'm', 's', '/'] ++ (['x'] ++ ['/', 's', 't', 'a', 't', 'e']))
      ([] ++ ((roomIdName, ['x']) :: [])) :=
  claim_C1_amended.1 roomsTemplate
    (['r', 'o', 'o', 'm', 's', '/'].map TAtom.lit) roomIdName
    (['/', 's', 't', 'a', 't', 'e'].map TAtom.lit)
    ['r', 'o', 'o', 'm', 's', '/'] ['/', 's', 't', 'a', 't', 'e'] [] []
    (by decide)
    (TMatch_lits_nil ['r', 'o', 'o', 'm', 's', '/'])
    (TMatch_lits_nil ['/', 's', 't', 'a', 't', 'e'])
    ['x'] (by decide)

/-- C9 (counterexample): the claim says every regex metacharacter outside
a placeholder is escaped before being included in the pattern.  `.` is a
regex metacharacter (in `SPECIAL_CHARS`, the set `re.escape` escapes),
yet `transform_path "a.b"` is `a.b` verbatim — no backslash is ever
introduced. -/
theorem claim_C9_counterexample :
    '.' ∈ SPECIAL_CHARS ∧
    transform_path ['a', '.', 'b'] = ['a', '.', 'b'] ∧
    '\\' ∉ transform_path ['a', '.', 'b'] := by decide

/-- C9 (amended): for every path template string, with or without
placeholders, the non-placeholder characters are included in the
compiled pattern verbatim and no escaping is performed: every character
of the compiled pattern is either a character of the template or one of
the fixed capture-group punctuation characters `( ? P < > [ ^ / ] * )`
(which do not include a backslash), so no backslash is ever introduced
and regex metacharacters outside a `{name}` placeholder keep their regex
meaning; a placeholder-free template passes through unchanged, and
`a.b/{id}` compiles to `a.b/(?P<id>[^/]*)` with the metacharacter `.`
left unescaped. -/
theorem claim_C9_amended :
    (∀ t c, c ∈ transform_path t → c ∈ t ∨ c ∈ groupChars) ∧
    (∀ t, '\\' ∉ t → '\\' ∉ transform_path t) ∧
    (∀ t, lbrace ∉ t → transform_path t = t) ∧
    transform_path ['a', '.', 'b', '/', lbrace, 'i', 'd', rbrace]
      = ['a', '.', 'b', '/'] ++ groupPat ['i', 'd'] ∧
    '\\' ∉ groupChars :=
  ⟨transform_path_chars, transform_path_no_backslash, transform_path_no_brace,
   by decide, by decide⟩

/-- C9 (witness): the amended claim's general statements applied to
concrete templates, one of them containing a placeholder next to the
metacharacter. -/
theorem claim_C9_witness :
    ('.' ∈ (['a', '.', 'b'] : List Char) ∨ '.' ∈ groupChars) ∧
    '\\' ∉ transform_path ['x', '.', lbrace, 'i', rbrace] ∧
    transform_path ['x', '.', '+'] = ['x', '.', '+'] :=
  ⟨claim_C9_amended.1 ['a', '.', 'b'] '.' (by decide),
   claim_C9_amended.2.1 ['x', '.', lbrace, 'i', rbrace] (by decide),
   claim_C9_amended.2.2.1 ['x', '.', '+'] (by decide)⟩

/-- C10 (counterexample): the claim says each `?` in a glob matches
exactly one character (any character) and `*` any run of characters.
The glob `"?"` compiles to `\A.\Z`, and Python's `.` in default mode
(no `re.DOTALL`) does not match a newline: the compiled pattern does not
accept the one-character subject `"\n"`. -/
theorem claim_C10_counterexample :
    ¬regexAccepts (glob_to_regex ['?']).1 (glob_to_regex ['?']).2 ['\n'] := by
  rintro ⟨st, ps, en, hparse, pre, mid, post, hs, hpre, hpost, hm⟩
  rw [parse_glob] at hparse
  obtain ⟨h1, h2, h3⟩ : true = st ∧ ['?'].map compilePiece = ps ∧ true = en := by
    have := Option.some.inj hparse
    exact ⟨congrArg Prod.fst this, congrArg (fun x => x.2.1) this,
      congrArg (fun x => x.2.2) this⟩
  rw [show (['?'].map compilePiece)
      = [(⟨RBase.dot, false⟩ : Piece)] from rfl] at h2
  subst h2
  rw [hpre h1.symm, hpost h3.symm] at hs
  simp only [List.nil_append, List.append_nil] at hs
  subst hs
  cases hm with
  | once b c ps2 s2 hb hm2 => exact hb rfl

/-- C10 (amended): `glob_to_regex` returns a pattern anchored at both
ends (it parses as `\A … \Z`) with the `IGNORECASE` flag set, and the
pattern accepts a subject — under the emitted fragment's regex
semantics, with anchors honoured and matching case-insensitive — exactly
when the glob matches it, where `*` (compiled to the plain-mode wildcard
`.*`) matches any possibly empty run of characters other than newline,
`?` (compiled to `.`) exactly one character other than newline, and
every other glob character itself (its escaped literal), regex
metacharacters escaped. -/
theorem claim_C10_amended (glob s : List Char) :
    (glob_to_regex glob).2 = true ∧
    (∃ ps, parseRegex (glob_to_regex glob).1 = some (true, ps, true)) ∧
    (regexAccepts (glob_to_regex glob).1 (glob_to_regex glob).2 s ↔ GMatch glob s) := by
  refine ⟨rfl, ⟨glob.map compilePiece, parse_glob glob⟩, ?_, ?_⟩
  · rintro ⟨st, ps, en, hparse, pre, mid, post, hs, hpre, hpost, hm⟩
    rw [parse_glob glob] at hparse
    obtain ⟨h1, h2, h3⟩ : true = st ∧ glob.map compilePiece = ps ∧ true = en := by
      have := Option.some.inj hparse
      exact ⟨congrArg Prod.fst this, congrArg (fun x => x.2.1) this,
        congrArg (fun x => x.2.2) this⟩
    subst h2
    rw [hpre h1.symm, hpost h3.symm] at hs
    simp only [List.nil_append, List.append_nil] at hs
    subst hs
    exact pmatch_to_gmatch_aux _ _ hm glob rfl
  · intro hg
    exact ⟨true, glob.map compilePiece, true, parse_glob glob, [], s, [],
      by simp, fun _ => rfl, fun _ => rfl, gmatch_to_pmatch glob s hg⟩

/-- C2: for a type that directly defines its own registration routine and
has annotated handlers, `servelet` installs the bridge over that routine,
and invoking it issues all annotation-driven registrations first — the
original routine (invoked on the same instance and server) contributes
only the suffix of the trace, after every annotation-driven event. -/
theorem claim_C2_bridge (cls : PyClass) (r : Routine) (σ : Store)
    (h1 : cls.register = some r) (h2 : annotated cls ≠ []) :
    (servelet cls).register
      = some (Routine.bridge ((annotated cls).map (fun m => m.1)) r) ∧
    (run cls.clsName
        (Routine.bridge ((annotated cls).map (fun m => m.1)) r) σ).2
      = (runMethods cls.clsName ((annotated cls).map (fun m => m.1)) σ).2 ++
        (run cls.clsName r
          (runMethods cls.clsName ((annotated cls).map (fun m => m.1)) σ).1).2 := by
  constructor
  · rw [servelet_register_pos cls h2, h1]
    rfl
  · rfl

/-- C2 (witness): the bridge theorem at a concrete class with one
annotated handler and a pre-existing routine. -/
theorem claim_C2_witness :
    (servelet cls2).register
      = some (Routine.bridge ((annotated cls2).map (fun m => m.1))
          (Routine.onlyAnn [])) ∧
    (run cls2.clsName
        (Routine.bridge ((annotated cls2).map (fun m => m.1))
          (Routine.onlyAnn [])) (initialStore cls2)).2
      = (runMethods cls2.clsName ((annotated cls2).map (fun m => m.1))
          (initialStore cls2)).2 ++
        (run cls2.clsName (Routine.onlyAnn [])
          (runMethods cls2.clsName ((annotated cls2).map (fun m => m.1))
            (initialStore cls2)).1).2 :=
  claim_C2_bridge cls2 (Routine.onlyAnn []) (initialStore cls2) rfl (by decide)

/-- C3 (counterexample): the claim says applying `servelet` twice and
invoking the installed routine once does not duplicate registrations.
In fact the second application wraps the first synthesized routine as the
"original" one, so each (handler, path) pair is registered twice. -/
theorem claim_C3_counterexample :
    (traceOf (servelet (servelet cls3)) (initialStore cls3)).map evKey
      = [("GET", ['p'], "h", "C3"), ("GET", ['p'], "h", "C3")] ∧
    (traceOf (servelet cls3) (initialStore cls3)).map evKey
      = [("GET", ['p'], "h", "C3")] := by
  constructor
  · rfl
  · rfl

/-- C3 (amended): re-finalization is not idempotent: for a type with
annotated handlers and no pre-existing registration routine, applying
`servelet` twice and invoking the installed routine once registers each
(handler, path entry) pair exactly twice — the annotation-driven
registration sequence of a single application, issued twice in a row. -/
theorem claim_C3_amended (cls : PyClass) (σ : Store)
    (h1 : cls.register = none) (h2 : annotated cls ≠ []) :
    (traceOf (servelet (servelet cls)) σ).map evKey
      = (traceOf (servelet cls) σ).map evKey ++
        (traceOf (servelet cls) σ).map evKey := by
  have hreg1 : (servelet cls).register
      = some (Routine.onlyAnn ((annotated cls).map (fun m => m.1))) := by
    rw [servelet_register_pos cls h2, h1]
    rfl
  have h2s : annotated (servelet cls) ≠ [] := by
    rw [annotated_servelet]
    exact h2
  have hreg2 : (servelet (servelet cls)).register
      = some (Routine.bridge ((annotated cls).map (fun m => m.1))
          (Routine.onlyAnn ((annotated cls).map (fun m => m.1)))) := by
    rw [servelet_register_pos (servelet cls) h2s, hreg1, annotated_servelet]
    rfl
  unfold traceOf
  rw [hreg1, hreg2]
  simp only [servelet_clsName]
  simp only [run]
  rw [List.map_append, runMethods_events, runMethods_events,
    skeleton_runMethods]

/-- C3 (witness): the amended claim at a concrete class whose handler
declares a two-element path sequence. -/
theorem claim_C3_witness :
    (traceOf (servelet (servelet cls3w)) (initialStore cls3w)).map evKey
      = (traceOf (servelet cls3w) (initialStore cls3w)).map evKey ++
        (traceOf (servelet cls3w) (initialStore cls3w)).map evKey :=
  claim_C3_amended cls3w (initialStore cls3w) rfl (by decide)

/-- C4 (counterexample): the claim says the pending annotation is never
modified after decoration time, and in particular invoking the
registration routine leaves the base options mapping unchanged.  In fact
`do_register` calls `setdefault` on the annotation's own kwargs dict for
single-string paths: after one pass the base options of `h` have gained
`add_stopper = True`, so the store is no longer its initial value. -/
theorem claim_C4_counterexample :
    alookup (runMethods "C4" ["h"] sigma4).1 "h"
      = some ⟨"GET", PathArg.single ['p'], [("add_stopper", PyVal.vbool true)]⟩ ∧
    ¬(runMethods "C4" ["h"] sigma4).1 = sigma4 := by
  constructor
  · rfl
  · decide

/-- C4 (amended): invoking the synthesized registration routine never
modifies an annotation's verb or path spec, and modifies its base
options mapping at most by appending the missing `add_stopper = True`
default: every other key is unchanged, a mapping that already contains
`add_stopper` is untouched entirely, and the store after one pass is a
fixed point of further passes. -/
theorem claim_C4_amended (cN : String) (ns : List String) (σ : Store) :
    skeleton (runMethods cN ns σ).1 = skeleton σ ∧
    (∀ m a a', alookup σ m = some a →
       alookup (runMethods cN ns σ).1 m = some a' →
       a'.verb = a.verb ∧ a'.path = a.path ∧
       (∀ k, ¬k = "add_stopper" → alookup a'.opts k = alookup a.opts k) ∧
       ((alookup a.opts "add_stopper").isSome → a'.opts = a.opts) ∧
       (a'.opts = a.opts ∨
        a'.opts = a.opts ++ [("add_stopper", PyVal.vbool true)])) ∧
    (runMethods cN ns ((runMethods cN ns σ).1)).1 = (runMethods cN ns σ).1 := by
  refine ⟨skeleton_runMethods cN ns σ, ?_, runMethods_idem cN ns σ⟩
  intro m a a' ha ha'
  obtain ⟨a0, h0, hv, hp, he⟩ := runMethods_entry cN ns σ m a' ha'
  have haa : a0 = a := Option.some.inj (h0.symm.trans ha)
  subst haa
  refine ⟨hv, hp, ?_, ?_, ?_⟩
  · intro k hk
    rcases he with h | ⟨hnone, h⟩
    · rw [h]
    · rw [h, alookup_append_single]
      cases hak : alookup a0.opts k with
      | some w => simp [hak]
      | none =>
        simp [hak]
        exact fun e => hk e.symm
  · intro hsome
    rcases he with h | ⟨hnone, h⟩
    · exact h
    · rw [hnone] at hsome
      exact absurd hsome (by simp)
  · have he2 := he
    unfold optsEvolves at he2
    rcases he2 with h | ⟨_, h⟩
    · exact Or.inl h
    · exact Or.inr h

/-- C4 (witness): the amended claim at a concrete one-handler store,
observing the appended default and the fixed point. -/
theorem claim_C4_witness :
    skeleton (runMethods "W4" ["h"] sigma4w).1 = skeleton sigma4w ∧
    (runMethods "W4" ["h"] ((runMethods "W4" ["h"] sigma4w).1)).1
      = (runMethods "W4" ["h"] sigma4w).1 ∧
    (ann4'.opts = ann4.opts ∨
     ann4'.opts = ann4.opts ++ [("add_stopper", PyVal.vbool true)]) :=
  ⟨(claim_C4_amended "W4" ["h"] sigma4w).1,
   (claim_C4_amended "W4" ["h"] sigma4w).2.2,
   ((claim_C4_amended "W4" ["h"] sigma4w).2.1 "h" ann4 ann4' rfl rfl).2.2.2.2⟩

/-- C5: for a `(template, override)` pair in a path sequence, the options
of the registration event are `{**base, **override}` (plus the
`add_stopper` policy default when absent): the override wins on key
collision, base keys not mentioned in the override survive unchanged;
with base `x = 0, y = 2` and override `x = 1` the event carries
`x = 1, y = 2`, and that event is exactly what the registration loop
issues for the pair entry. -/
theorem claim_C5_merge :
    (∀ cN v p hm b o k,
       alookup ((do_register cN v p (mergeOpts b o) hm).2).opts k =
         match alookup o k with
         | some w => some w
         | none =>
           match alookup b k with
           | some w => some w
           | none => if "add_stopper" = k then some (PyVal.vbool true) else none) ∧
    alookup ((do_register "C5" "GET" ['f'] (mergeOpts b5 o5) "h").2).opts "x"
      = some (PyVal.vint 1) ∧
    alookup ((do_register "C5" "GET" ['f'] (mergeOpts b5 o5) "h").2).opts "y"
      = some (PyVal.vint 2) ∧
    (runMethods "C5" ["h"] sigma5).2
      = [(do_register "C5" "GET" ['f'] (mergeOpts b5 o5) "h").2] := by
  refine ⟨?_, by decide, by decide, by decide⟩
  intro cN v p hm b o k
  show alookup (setdefault (mergeOpts b o) "add_stopper" (PyVal.vbool true)) k = _
  rw [alookup_setdefault, alookup_mergeOpts]
  cases ho : alookup o k <;> cases hb : alookup b k <;> simp

/-- C6: with every path spec well-formed, one invocation of the
annotation-driven registration issues exactly the sum over handlers of
their path-entry counts (single string → 1, sequence of length k → k),
and the number of issued registrations is invariant under permuting the
handler iteration order. -/
theorem claim_C6_count (cN : String) (ns : List String) (σ : Store)
    (h : ∀ n, n ∈ ns → wellFormedOpt (alookup σ n)) :
    ((runMethods cN ns σ).2).length
      = (ns.map (fun n =>
          match alookup σ n with
          | some a => entrySpecCount a.path
          | none => 0)).sum ∧
    (∀ ns2, ns.Perm ns2 →
      ((runMethods cN ns2 σ).2).length = ((runMethods cN ns σ).2).length) := by
  have hlen : ∀ ms : List String, ((runMethods cN ms σ).2).length
      = (ms.map (fun n => (methodKeys cN (skeleton σ) n).length)).sum := by
    intro ms
    have hev := congrArg List.length (runMethods_events cN ms σ)
    rw [List.length_map] at hev
    rw [hev, List.length_flatMap]
    rfl
  constructor
  · rw [hlen ns]
    congr 1
    apply List.map_congr_left
    intro n hn
    have hwf := h n hn
    unfold methodKeys
    rw [alookup_skeleton]
    cases hl : alookup σ n with
    | none => simp
    | some a =>
      rw [hl] at hwf
      have hwf2 : wellFormedArg a.path := hwf
      cases hp : a.path with
      | single p => simp [hp, entrySpecCount]
      | bad =>
        rw [hp] at hwf2
        exact absurd hwf2 id
      | multi es =>
        rw [hp] at hwf2
        simp only [hp, Option.map, entrySpecCount]
        rw [List.length_flatMap]
        have hone : ∀ e ∈ es, ((elemKeys cN a.verb n e).length) = 1 := by
          intro e hex
          cases e with
          | str p2 => rfl
          | pair p2 o2 => rfl
          | bad => exact absurd rfl (hwf2 PathElem.bad hex)
        have hmap : es.map (List.length ∘ elemKeys cN a.verb n)
            = es.map (fun e => 1) := by
          apply List.map_congr_left
          intro e hex
          exact hone e hex
        rw [hmap]
        simp
  · intro ns2 hperm
    rw [hlen ns, hlen ns2]
    exact List.Perm.sum_eq (List.Perm.map _ hperm.symm)

/-- C6 (witness): the count theorem at a two-handler store (a single
string and a two-element sequence): three registrations in both orders. -/
theorem claim_C6_witness :
    ((runMethods "C6" ["a", "b"] sigma6).2).length
      = (["a", "b"].map (fun n =>
          match alookup sigma6 n with
          | some a => entrySpecCount a.path
          | none => 0)).sum ∧
    ((runMethods "C6" ["b", "a"] sigma6).2).length
      = ((runMethods "C6" ["a", "b"] sigma6).2).length :=
  ⟨(claim_C6_count "C6" ["a", "b"] sigma6 (by decide)).1,
   (claim_C6_count "C6" ["a", "b"] sigma6 (by decide)).2 ["b", "a"]
     (by decide)⟩

/-- C7: a type with zero annotated handlers among its directly declared
members is returned by `servelet` completely unmodified — the same value,
so in particular any pre-existing registration routine is the identical
attribute, and nothing is installed. -/
theorem claim_C7_no_annotations (cls : PyClass) (h : annotated cls = []) :
    servelet cls = cls := by
  unfold servelet
  simp [h]

/-- C7 (witness): the no-annotation theorem at a concrete class carrying
an unannotated method and its own registration routine. -/
theorem claim_C7_witness : servelet cls7 = cls7 :=
  claim_C7_no_annotations cls7 rfl

